import Mathlib

/-!
Verification development for the in-memory paged index core of an embedded
ordered key-value store (`src/db.rs`).  Keys and values are byte strings,
modelled as `List Nat` with bytes below 256 where that matters.  Leaves are
sorted bounded-capacity maps; the `Db` operations (`insert`, `remove`,
`compare_and_swap`, `apply_batch`, iteration helpers, the page-in path and the
global error slot) are shallowly embedded as pure state-passing functions
translated directly from the source.
-/

namespace Sled

/-- A byte string (`InlineArray` in the source): a list of bytes. -/
abbrev Bytes := List Nat

/-- Strict lexicographic order on byte strings, mirroring Rust's `Ord` for
byte slices: compare pointwise, a strict prefix is smaller. -/
def lexLt : Bytes → Bytes → Bool
  | [], [] => false
  | [], _ :: _ => true
  | _ :: _, [] => false
  | a :: as, b :: bs => if a < b then true else if b < a then false else lexLt as bs

/-- Non-strict lexicographic order: `a ≤ b` iff `¬ b < a` (total order). -/
def lexLe (a b : Bytes) : Bool := !(lexLt b a)

theorem lexLt_nil_right (a : Bytes) : lexLt a [] = false := by
  cases a <;> rfl

theorem lexLt_cons_self (a : Nat) (as bs : Bytes) :
    lexLt (a :: as) (a :: bs) = lexLt as bs := by
  simp [lexLt]

theorem lexLt_cons_of_lt {a b : Nat} (h : a < b) (as bs : Bytes) :
    lexLt (a :: as) (b :: bs) = true := by
  simp [lexLt, h]

theorem lexLt_cons_of_gt {a b : Nat} (h : b < a) (as bs : Bytes) :
    lexLt (a :: as) (b :: bs) = false := by
  simp [lexLt, h, Nat.lt_asymm h]

theorem lexLt_irrefl (a : Bytes) : lexLt a a = false := by
  induction a with
  | nil => rfl
  | cons x xs ih => rw [lexLt_cons_self]; exact ih

theorem lexLt_trans : ∀ {a b c : Bytes},
    lexLt a b = true → lexLt b c = true → lexLt a c = true
  | [], [], _, h, _ => by simp [lexLt] at h
  | [], _ :: _, [], _, h => by simp [lexLt] at h
  | [], _ :: _, _ :: _, _, _ => rfl
  | _ :: _, [], _, h, _ => by simp [lexLt] at h
  | _ :: _, _ :: _, [], _, h => by simp [lexLt] at h
  | a :: as, b :: bs, c :: cs, hab, hbc => by
    rcases Nat.lt_trichotomy a b with h1 | h1 | h1
    · rcases Nat.lt_trichotomy b c with h2 | h2 | h2
      · exact lexLt_cons_of_lt (Nat.lt_trans h1 h2) _ _
      · subst h2; exact lexLt_cons_of_lt h1 _ _
      · rw [lexLt_cons_of_gt h2] at hbc; exact absurd hbc (by simp)
    · subst h1
      rcases Nat.lt_trichotomy a c with h2 | h2 | h2
      · exact lexLt_cons_of_lt h2 _ _
      · subst h2
        rw [lexLt_cons_self] at hab hbc ⊢
        exact lexLt_trans hab hbc
      · rw [lexLt_cons_of_gt h2] at hbc; exact absurd hbc (by simp)
    · rw [lexLt_cons_of_gt h1] at hab; exact absurd hab (by simp)

theorem lexLt_ne {a b : Bytes} (h : lexLt a b = true) : a ≠ b := by
  intro he; subst he; rw [lexLt_irrefl] at h; exact absurd h (by simp)

/-- A (strict) prefix never exceeds the whole string. -/
theorem lexLt_append_self (l t : Bytes) : lexLt (l ++ t) l = false := by
  induction l with
  | nil => simpa using lexLt_nil_right t
  | cons a l ih => simpa [lexLt_cons_self] using ih

theorem lexLe_append_self (l t : Bytes) : lexLe l (l ++ t) = true := by
  simp [lexLe, lexLt_append_self]

theorem lexLe_take_self (n : Nat) (l : Bytes) : lexLe (l.take n) l = true := by
  have h := lexLe_append_self (l.take n) (l.drop n)
  rwa [List.take_append_drop] at h

theorem lexLe_refl (a : Bytes) : lexLe a a = true := by
  simp [lexLe, lexLt_irrefl]

/-! ## The sorted leaf map (`StackMap` in the source)

A leaf's `data` is a sorted fixed-capacity map.  We model it as a list of
key-value pairs kept sorted by `lexLt`; `smInsert`/`smRemove` return the
updated list together with the previous value, matching the source API. -/

/-- `data.get(k)` on the sorted map. -/
def smGet (k : Bytes) : List (Bytes × Bytes) → Option Bytes
  | [] => none
  | (k', v') :: rest => if k = k' then some v' else smGet k rest

/-- `data.insert(k, v)`: sorted upsert returning the previous value. -/
def smInsert (k v : Bytes) : List (Bytes × Bytes) → List (Bytes × Bytes) × Option Bytes
  | [] => ([(k, v)], none)
  | (k', v') :: rest =>
    if k = k' then ((k, v) :: rest, some v')
    else if lexLt k k' then ((k, v) :: (k', v') :: rest, none)
    else
      let r := smInsert k v rest
      ((k', v') :: r.1, r.2)

/-- `data.remove(k)`: delete returning the previous value. -/
def smRemove (k : Bytes) : List (Bytes × Bytes) → List (Bytes × Bytes) × Option Bytes
  | [] => ([], none)
  | (k', v') :: rest =>
    if k = k' then (rest, some v')
    else
      let r := smRemove k rest
      ((k', v') :: r.1, r.2)

/-- Keys strictly sorted: the `StackMap` invariant. -/
abbrev SmSorted (d : List (Bytes × Bytes)) : Prop :=
  List.Pairwise (fun x y => lexLt x.1 y.1 = true) d

theorem smGet_eq_none_of_forall_ne {k : Bytes} :
    ∀ {d : List (Bytes × Bytes)}, (∀ e ∈ d, k ≠ e.1) → smGet k d = none
  | [], _ => rfl
  | (k', v') :: rest, h => by
    have hk : k ≠ k' := h (k', v') (by simp)
    simp only [smGet, if_neg hk]
    exact smGet_eq_none_of_forall_ne (fun e he => h e (by simp [he]))

theorem smInsert_ret {k v : Bytes} :
    ∀ {d : List (Bytes × Bytes)}, SmSorted d → (smInsert k v d).2 = smGet k d
  | [], _ => rfl
  | (k', v') :: rest, hs => by
    by_cases hk : k = k'
    · simp [smInsert, smGet, hk]
    · by_cases hlt : lexLt k k' = true
      · have hrest : smGet k rest = none := by
          refine smGet_eq_none_of_forall_ne (fun e he => ?_)
          have h1 : lexLt k' e.1 = true := (List.pairwise_cons.mp hs).1 e he
          exact lexLt_ne (lexLt_trans hlt h1)
        simp [smInsert, smGet, hk, hlt, hrest]
      · have ih := smInsert_ret (k := k) (v := v) (List.pairwise_cons.mp hs).2
        simp [smInsert, smGet, hk, hlt, ih]

theorem smGet_smInsert (k v : Bytes) :
    ∀ d : List (Bytes × Bytes), smGet k (smInsert k v d).1 = some v
  | [] => by simp [smInsert, smGet]
  | (k', v') :: rest => by
    by_cases hk : k = k'
    · simp [smInsert, smGet, hk]
    · by_cases hlt : lexLt k k' = true
      · simp [smInsert, smGet, hk, hlt]
      · have ih := smGet_smInsert k v rest
        simp [smInsert, smGet, hk, hlt, ih]

theorem smGet_smRemove (k : Bytes) :
    ∀ {d : List (Bytes × Bytes)}, SmSorted d → smGet k (smRemove k d).1 = none
  | [], _ => rfl
  | (k', v') :: rest, hs => by
    by_cases hk : k = k'
    · subst hk
      simp only [smRemove, if_pos rfl]
      refine smGet_eq_none_of_forall_ne (fun e he => ?_)
      exact lexLt_ne ((List.pairwise_cons.mp hs).1 e he)
    · have ih := smGet_smRemove (k := k) (List.pairwise_cons.mp hs).2
      simp [smRemove, smGet, hk, ih]

theorem smInsert_same {k v : Bytes} :
    ∀ {d : List (Bytes × Bytes)}, SmSorted d → smGet k d = some v →
      (smInsert k v d).1 = d
  | [], _, h => by simp [smGet] at h
  | (k', v') :: rest, hs, h => by
    by_cases hk : k = k'
    · subst hk
      simp [smGet] at h
      subst h
      simp [smInsert]
    · by_cases hlt : lexLt k k' = true
      · exfalso
        have hrest : smGet k rest = none := by
          refine smGet_eq_none_of_forall_ne (fun e he => ?_)
          have h1 : lexLt k' e.1 = true := (List.pairwise_cons.mp hs).1 e he
          exact lexLt_ne (lexLt_trans hlt h1)
        rw [smGet, if_neg hk, hrest] at h
        exact Option.noConfusion h
      · have ih := smInsert_same (k := k) (v := v) (List.pairwise_cons.mp hs).2
        rw [smGet, if_neg hk] at h
        simp [smInsert, hk, hlt, ih h]

/-! ## Leaf (db.rs lines 60-69) -/

/-- A leaf page: a sorted map of key-value pairs covering `[lo, hi)`
(`hi = none` is plus infinity), with a dirty-epoch marker and a cached
approximate in-memory size.  Epochs (`NonZeroU64` in the source) are positive
naturals. -/
structure Leaf where
  lo : Bytes
  hi : Option Bytes
  prefix_length : Nat
  data : List (Bytes × Bytes)
  dirty_flush_epoch : Option Nat
  in_memory_size : Nat
deriving DecidableEq

/-- `mem::size_of::<Leaf<LEAF_FANOUT>>()`: a platform constant that only feeds
the `in_memory_size` heuristic, which no claim depends on; modelled as 0. -/
def leafStructSize : Nat := 0

/-- `Leaf::set_in_memory_size` (db.rs 136-141). -/
def computeInMemorySize (l : Leaf) : Nat :=
  leafStructSize
    + (match l.hi with | some h => h.length | none => 0)
    + l.lo.length
    + (l.data.map (fun kv => kv.1.length + kv.2.length)).sum

/-! ## Serialization (db.rs 111-134)

The zstd and bincode codecs are external collaborators; a leaf is serialized
as the record of its serde-visible fields.  `dirty_flush_epoch` carries
`#[serde(skip)]` in the source, so it is NOT part of the record and
deserialization gives it the default `None`. -/

/-- The serde-visible record of a leaf (everything except the skipped
`dirty_flush_epoch`). -/
structure SerializedLeaf where
  lo : Bytes
  hi : Option Bytes
  prefix_length : Nat
  data : List (Bytes × Bytes)
  in_memory_size : Nat
deriving DecidableEq

/-- `Leaf::serialize` (the compression level only affects the external codec,
not the decoded record). -/
def Leaf.serialize (l : Leaf) : SerializedLeaf :=
  ⟨l.lo, l.hi, l.prefix_length, l.data, l.in_memory_size⟩

/-- Byte length of the bincode encoding of the record: u64 length prefixes and
option tags plus raw bytes.  The exact constants are inessential; this is the
"decompressed buffer length" that `deserialize` uses as a cheap proxy for the
in-memory size. -/
def encodedLength (s : SerializedLeaf) : Nat :=
  (8 + s.lo.length)
    + (1 + (match s.hi with | some h => 8 + h.length | none => 0))
    + 8
    + (8 + (s.data.map (fun kv => 8 + kv.1.length + 8 + kv.2.length)).sum)
    + 8

/-- `Leaf::deserialize` (db.rs 125-134): decode the record, recompute
`in_memory_size` as the decompressed byte length; the skipped
`dirty_flush_epoch` defaults to `None`. -/
def Leaf.deserialize (s : SerializedLeaf) : Leaf :=
  ⟨s.lo, s.hi, s.prefix_length, s.data, none, encodedLength s⟩

/-! ## Split (db.rs 143-209) -/

/-- `right_min.iter().zip(left_max.iter()).take_while(|(a,b)| a == b).count()`:
the length of the common prefix of the two keys flanking the split point. -/
def commonPrefixLen (right_min left_max : Bytes) : Nat :=
  ((right_min.zip left_max).takeWhile (fun p => p.1 == p.2)).length

/-- The split offset chosen by `split_if_full` (db.rs 150-160). -/
def splitOffset (l : Leaf) : Nat :=
  if l.lo = [] then 1
  else if l.hi = none then l.data.length - 2
  else l.data.length / 2

/-- A node handle: a stable id plus an optional resident leaf
(db.rs 52-58). -/
structure Node where
  id : Nat
  inner : Option Leaf
deriving DecidableEq

/-- `Leaf::split_if_full` (db.rs 143-209).  When the leaf is full the data is
split at `splitOffset`; the separator is the suffix-truncated first key of the
right half; the right half becomes a new leaf `[separator, old hi)` dirty in
`new_epoch`, and the old leaf shrinks to `[lo, separator)`.  Returns the
mutated left leaf and, on split, the separator and the new right leaf.
The source unwraps the last key of the left half and the first key of the
right half; the `getD []` defaults stand for those panics and are never
reached under the fullness hypotheses used in the theorems.  `rhs_id` is the
object id minted by `allocator.allocate_object_id()`. -/
def splitIfFull (fanout : Nat) (l : Leaf) (new_epoch rhs_id : Nat) :
    Leaf × Option (Bytes × Node) :=
  if l.data.length = fanout then
    let split_offset := splitOffset l
    let ldata := l.data.take split_offset
    let rdata := l.data.drop split_offset
    let left_max := ((ldata.getLast?).map Prod.fst).getD []
    let right_min := ((rdata.head?).map Prod.fst).getD []
    let splitpoint_length := commonPrefixLen right_min left_max + 1
    let split_key := right_min.take splitpoint_length
    let rhs0 : Leaf :=
      { dirty_flush_epoch := some new_epoch
        hi := l.hi
        lo := split_key
        prefix_length := 0
        in_memory_size := 0
        data := rdata }
    let rhs : Leaf := { rhs0 with in_memory_size := computeInMemorySize rhs0 }
    let self1 : Leaf := { l with hi := some split_key, data := ldata }
    let self2 : Leaf := { self1 with in_memory_size := computeInMemorySize self1 }
    (self2, some (split_key, { id := rhs_id, inner := some rhs }))
  else (l, none)

/-! ## The dirty map (db.rs field `dirty`)

`ConcurrentMap<(NonZeroU64, InlineArray), Option<Arc<Vec<u8>>>>`: keys are
(epoch, low key), the value is `Some bytes` once a writer has pre-serialized
the leaf on behalf of that epoch. -/

abbrev DirtyMap := List ((Nat × Bytes) × Option SerializedLeaf)

/-- Upsert into the dirty map. -/
def dirtyInsert (key : Nat × Bytes) (v : Option SerializedLeaf) :
    DirtyMap → DirtyMap
  | [] => [(key, v)]
  | (k', v') :: rest =>
    if key = k' then (key, v) :: rest else (k', v') :: dirtyInsert key v rest

/-- Lookup in the dirty map: `some w` when the key is present with slot `w`. -/
def dirtyGet (key : Nat × Bytes) : DirtyMap → Option (Option SerializedLeaf)
  | [] => none
  | (k', v') :: rest => if key = k' then some v' else dirtyGet key rest

theorem dirtyGet_dirtyInsert (a b : Nat × Bytes) (v : Option SerializedLeaf) :
    ∀ d : DirtyMap, dirtyGet a (dirtyInsert b v d) =
      if a = b then some v else dirtyGet a d
  | [] => by
    by_cases h : a = b <;> simp [dirtyInsert, dirtyGet, h]
  | (k', v') :: rest => by
    have ih := dirtyGet_dirtyInsert a b v rest
    by_cases h1 : b = k'
    · subst h1
      by_cases h2 : a = b <;> simp [dirtyInsert, dirtyGet, h2]
    · by_cases h2 : a = b
      · subst h2
        simp [dirtyInsert, dirtyGet, h1, ih]
      · have h1' : ¬(k' = b) := fun h => h1 h.symm
        by_cases h3 : a = k' <;>
          simp [dirtyInsert, dirtyGet, h1, h1', h2, h3, ih]

theorem smRemove_of_none {k : Bytes} :
    ∀ {d : List (Bytes × Bytes)}, (smRemove k d).2 = none → (smRemove k d).1 = d
  | [], _ => rfl
  | (k', v') :: rest, h => by
    by_cases hk : k = k'
    · simp [smRemove, hk] at h
    · simp only [smRemove, if_neg hk] at h ⊢
      exact congrArg _ (smRemove_of_none h)

/-! ## Db::insert (db.rs 688-734)

Single-key operations run on one leaf under its write lock, holding an epoch
guard.  The embedding passes the locked leaf, the dirty map, the leaf's index
low key and the guard's epoch explicitly. -/

/-- Result of `Db::insert` on the locked leaf: the previous value, the updated
leaf, the updated dirty map, and the published split, if any. -/
structure InsertOutcome where
  ret : Option Bytes
  leaf : Leaf
  dirty : DirtyMap
  split : Option (Bytes × Node)
deriving DecidableEq

/-- The common tail of `insert` (db.rs 721-731) and `compare_and_swap`
(db.rs 970-980): split if full, then — if a split fired or the
operation-specific condition `also_marked` holds — set the leaf's
`dirty_flush_epoch` to the guard's epoch and upsert
`dirty[(epoch, low_key)] = None`; a split additionally upserts
`dirty[(epoch, split_key)] = None` and publishes the new right node. -/
def markAndPublish (fanout : Nat) (l1 : Leaf) (dirty : DirtyMap)
    (low_key : Bytes) (new_epoch rhs_id : Nat) (also_marked : Bool) :
    Leaf × DirtyMap × Option (Bytes × Node) :=
  let sp := splitIfFull fanout l1 new_epoch rhs_id
  let marked := sp.2.isSome || also_marked
  let l2 := if marked then { sp.1 with dirty_flush_epoch := some new_epoch } else sp.1
  let d1 := if marked then dirtyInsert (new_epoch, low_key) none dirty else dirty
  match sp.2 with
  | some (sk, rhs_node) =>
    (l2, dirtyInsert (new_epoch, sk) none d1, some (sk, rhs_node))
  | none => (l2, d1, none)

def dbInsert (fanout : Nat) (l : Leaf) (dirty : DirtyMap) (low_key : Bytes)
    (new_epoch rhs_id : Nat) (k v : Bytes) : InsertOutcome :=
  let ins := smInsert k v l.data
  let ret := ins.2
  let old_size := match ret with | some ov => k.length + ov.length | none => 0
  let new_size := k.length + v.length
  let size1 :=
    if old_size < new_size then l.in_memory_size + (new_size - old_size)
    else l.in_memory_size - (old_size - new_size)
  let l1 : Leaf := { l with data := ins.1, in_memory_size := size1 }
  let t := markAndPublish fanout l1 dirty low_key new_epoch rhs_id (!(some v == ret))
  ⟨ret, t.1, t.2.1, t.2.2⟩

/-- `Db::remove` (db.rs 751-774): delete the key; mark dirty iff a removal
actually occurred.  `in_memory_size` is not updated on this path. -/
def dbRemove (l : Leaf) (dirty : DirtyMap) (low_key : Bytes) (new_epoch : Nat)
    (k : Bytes) : Option Bytes × Leaf × DirtyMap :=
  let rm := smRemove k l.data
  let ret := rm.2
  if ret.isSome then
    (ret, { l with data := rm.1, dirty_flush_epoch := some new_epoch },
      dirtyInsert (new_epoch, low_key) none dirty)
  else (ret, { l with data := rm.1 }, dirty)

/-! ## Db::compare_and_swap (db.rs 919-983) -/

structure CompareAndSwapSuccess where
  new_value : Option Bytes
  previous_value : Option Bytes
deriving DecidableEq

structure CompareAndSwapError where
  current : Option Bytes
  proposed : Option Bytes
deriving DecidableEq

abbrev CasResult := Except CompareAndSwapError CompareAndSwapSuccess

structure CasOutcome where
  result : CasResult
  leaf : Leaf
  dirty : DirtyMap
  split : Option (Bytes × Node)

/-- The `previous_matches` test of `compare_and_swap` (db.rs 945-953): both
`None`, or both present with equal bytes. -/
def previousMatches (old current : Option Bytes) : Bool :=
  match old, current with
  | none, none => true
  | some conditional, some cur => conditional == cur
  | _, _ => false

theorem previousMatches_true {o c : Option Bytes} (h : o = c) :
    previousMatches o c = true := by
  subst h
  cases o <;> simp [previousMatches]

theorem previousMatches_false {o c : Option Bytes} (h : o ≠ c) :
    previousMatches o c = false := by
  rcases o with _ | a <;> rcases c with _ | b
  · exact absurd rfl h
  · rfl
  · rfl
  · exact beq_eq_false_iff_ne.mpr (fun he => h (by rw [he]))

def dbCompareAndSwap (fanout : Nat) (l : Leaf) (dirty : DirtyMap)
    (low_key : Bytes) (new_epoch rhs_id : Nat) (k : Bytes)
    (old new : Option Bytes) : CasOutcome :=
  let current := smGet k l.data
  let previous_matches := previousMatches old current
  let step : CasResult × List (Bytes × Bytes) :=
    if previous_matches then
      let data1 := match new with
        | some new_value => (smInsert k new_value l.data).1
        | none => (smRemove k l.data).1
      (Except.ok ⟨new, current⟩, data1)
    else (Except.error ⟨current, new⟩, l.data)
  let l1 : Leaf := { l with data := step.2 }
  let is_ok := match step.1 with | Except.ok _ => true | Except.error _ => false
  let t := markAndPublish fanout l1 dirty low_key new_epoch rhs_id is_ok
  ⟨step.1, t.1, t.2.1, t.2.2⟩

/-! ## Global error slot (db.rs 359-393) -/

/-- The `(io::ErrorKind, String)` payload of the global error slot. -/
structure GErr where
  kind : Nat
  msg : String
deriving DecidableEq

/-- `Db::check_error`: return the installed error, if any. -/
def checkError (slot : Option GErr) : Except GErr Unit :=
  match slot with
  | none => Except.ok ()
  | some e => Except.error e

/-- `Db::set_error`: atomic compare-exchange from null — only the first error
is installed, later ones are dropped. -/
def setError (slot : Option GErr) (e : GErr) : Option GErr :=
  match slot with
  | none => some e
  | some old => some old

/-! ## Db::apply_batch (db.rs 1195-1316)

Phase 1 (lock acquisition in ascending key order) is pure locking and is
represented by the `acquired` map: the owning leaves of all batch keys, as a
list sorted by low key.  Phases 2-4 below mirror the source.  The epoch guard
taken after lock acquisition supplies `new_epoch`; `firstRhsId` models the
object-id allocator.  Phase 4's publication of the new right nodes into the
two index maps is represented by returning the split list. -/

/-- Phase 2 (db.rs 1242-1269): a leaf dirty at an earlier epoch is
cooperatively serialized into the dirty map under its old epoch, and its
marker cleared, before the batch mutates it. -/
def coopFlushLeaf (new_epoch : Nat) (l : Leaf) (dirty : DirtyMap) :
    Leaf × DirtyMap :=
  match l.dirty_flush_epoch with
  | some old_flush_epoch =>
    if old_flush_epoch ≠ new_epoch then
      let cleared : Leaf := { l with dirty_flush_epoch := none }
      (cleared, dirtyInsert (old_flush_epoch, l.lo) (some cleared.serialize) dirty)
    else (l, dirty)
  | none => (l, dirty)

def coopFlushAll (new_epoch : Nat) :
    List (Bytes × Leaf) → DirtyMap → List (Bytes × Leaf) × DirtyMap
  | [], dirty => ([], dirty)
  | (lo, l) :: rest, dirty =>
    let r := coopFlushLeaf new_epoch l dirty
    let rr := coopFlushAll new_epoch rest r.2
    ((lo, r.1) :: rr.1, rr.2)

/-- Phase 3, one write (db.rs 1274-1303): locate the owning guard via
`acquired.range(..=key).next_back()` (the greatest low key ≤ key), insert or
remove, and on a split immediately add the new right leaf to the acquired map
(its low key sits between the owner's and the next acquired low key, so the
in-place insertion keeps the list sorted).  The source unwraps the owner; an
absent owner (a batch key below every acquired low key) would panic and is
modelled as leaving the state unchanged. -/
def applyWrite (fanout new_epoch : Nat) (k : Bytes) (v? : Option Bytes)
    (rhs_id : Nat) :
    List (Bytes × Leaf) → List (Bytes × Leaf) × Option (Bytes × Node)
  | [] => ([], none)
  | (lo, l) :: rest =>
    let ownerHere :=
      match rest.head? with
      | some (lo2, _) => !(lexLe lo2 k)
      | none => true
    if ownerHere then
      if lexLe lo k then
        match v? with
        | some v =>
          let l1 : Leaf := { l with data := (smInsert k v l.data).1 }
          let sp := splitIfFull fanout l1 new_epoch rhs_id
          match sp.2 with
          | some (sk, rhs_node) =>
            ((lo, sp.1) ::
              (sk, (rhs_node.inner).getD sp.1) :: rest, some (sk, rhs_node))
          | none => ((lo, sp.1) :: rest, none)
        | none => ((lo, { l with data := (smRemove k l.data).1 }) :: rest, none)
      else ((lo, l) :: rest, none)
    else
      let r := applyWrite fanout new_epoch k v? rhs_id rest
      ((lo, l) :: r.1, r.2)

/-- `Db::apply_batch` after phase-1 lock acquisition: cooperative flush of
stale dirty leaves, then the writes in ascending key order, then publication
of the splits.  NOTE (faithful to the source): phase 3 performs NO dirty
marking — neither `leaf.dirty_flush_epoch` nor the dirty map is updated for
the mutated leaves. -/
def applyBatch (fanout new_epoch : Nat) (writes : List (Bytes × Option Bytes))
    (acquired : List (Bytes × Leaf)) (dirty : DirtyMap) (firstRhsId : Nat) :
    List (Bytes × Leaf) × DirtyMap × List (Bytes × Node) :=
  let p2 := coopFlushAll new_epoch acquired dirty
  let step := fun (st : List (Bytes × Leaf) × List (Bytes × Node) × Nat)
      (w : Bytes × Option Bytes) =>
    let r := applyWrite fanout new_epoch w.1 w.2 st.2.2 st.1
    match r.2 with
    | some s => (r.1, st.2.1 ++ [s], st.2.2 + 1)
    | none => (r.1, st.2.1, st.2.2)
  let p3 := writes.foldl step (p2.1, [], firstRhsId)
  (p3.1, p2.2, p3.2.1)

/-! ## Operation entry points and the error slot

`get` (db.rs 658), `insert` (697), `remove` (755) and `compare_and_swap`
(930) all begin with `self.check_error()?`.  `apply_batch` (1195-1316) and
`flush` (789-863) contain no such check: their bodies run regardless of the
slot. -/

def dbGetChecked (slot : Option GErr) (l : Leaf) (k : Bytes) :
    Except GErr (Option Bytes) :=
  match checkError slot with
  | Except.error e => Except.error e
  | Except.ok _ => Except.ok (smGet k l.data)

def dbInsertChecked (slot : Option GErr) (fanout : Nat) (l : Leaf)
    (dirty : DirtyMap) (low_key : Bytes) (new_epoch rhs_id : Nat)
    (k v : Bytes) : Except GErr InsertOutcome :=
  match checkError slot with
  | Except.error e => Except.error e
  | Except.ok _ => Except.ok (dbInsert fanout l dirty low_key new_epoch rhs_id k v)

def dbRemoveChecked (slot : Option GErr) (l : Leaf) (dirty : DirtyMap)
    (low_key : Bytes) (new_epoch : Nat) (k : Bytes) :
    Except GErr (Option Bytes × Leaf × DirtyMap) :=
  match checkError slot with
  | Except.error e => Except.error e
  | Except.ok _ => Except.ok (dbRemove l dirty low_key new_epoch k)

def dbCompareAndSwapChecked (slot : Option GErr) (fanout : Nat) (l : Leaf)
    (dirty : DirtyMap) (low_key : Bytes) (new_epoch rhs_id : Nat) (k : Bytes)
    (old new : Option Bytes) : Except GErr CasOutcome :=
  match checkError slot with
  | Except.error e => Except.error e
  | Except.ok _ =>
    Except.ok (dbCompareAndSwap fanout l dirty low_key new_epoch rhs_id k old new)

/-- `apply_batch` never consults the error slot: the body runs whatever the
slot holds (there is no `check_error` call in db.rs 1195-1316). -/
def applyBatchChecked (slot : Option GErr) (fanout new_epoch : Nat)
    (writes : List (Bytes × Option Bytes)) (acquired : List (Bytes × Leaf))
    (dirty : DirtyMap) (firstRhsId : Nat) :
    Except GErr (List (Bytes × Leaf) × DirtyMap × List (Bytes × Node)) :=
  match slot with
  | _ => Except.ok (applyBatch fanout new_epoch writes acquired dirty firstRhsId)

/-! ## Iteration and the pop helpers (db.rs 1126-1164, 1544-1741, 1804-1874)

The logical content of the tree is the concatenation of its leaves' sorted
data: a single sorted entry list.  `Iter` walks it filtered by its bounds. -/

/-- One end of an iteration range (`std::ops::Bound`). -/
inductive KeyBound
  | unbounded
  | included (b : Bytes)
  | excluded (b : Bytes)
deriving DecidableEq

def lowerOk (bd : KeyBound) (k : Bytes) : Bool :=
  match bd with
  | KeyBound.unbounded => true
  | KeyBound.included b => lexLe b k
  | KeyBound.excluded b => lexLt b k

def upperOk (bd : KeyBound) (k : Bytes) : Bool :=
  match bd with
  | KeyBound.unbounded => true
  | KeyBound.included b => lexLe k b
  | KeyBound.excluded b => lexLt k b

def inBounds (r : KeyBound × KeyBound) (k : Bytes) : Bool :=
  lowerOk r.1 k && upperOk r.2 k

/-- Forward iteration (`Iter::next`, db.rs 1831-1860): the first in-bounds
entry of the sorted contents. -/
def rangeNext (entries : List (Bytes × Bytes)) (r : KeyBound × KeyBound) :
    Option (Bytes × Bytes) :=
  entries.find? (fun kv => inBounds r kv.1)

/-- The way a model operation can abort. -/
inductive PanicKind
  | todoUnimplemented
deriving DecidableEq

/-- `Iter::next_back` (db.rs 1871-1873) is `todo!()`: every call panics. -/
def iterNextBack : Except PanicKind (Option (Bytes × Bytes)) :=
  Except.error PanicKind.todoUnimplemented

/-- `Db::pop_last` (db.rs 1544-1565): `self.iter().next_back()` is evaluated
before anything else, so the whole call inherits its panic. -/
def popLast (_entries : List (Bytes × Bytes)) :
    Except PanicKind (Option (Bytes × Bytes)) :=
  match iterNextBack with
  | Except.error p => Except.error p
  | Except.ok (some kv) => Except.ok (some kv)
  | Except.ok none => Except.ok none

/-- `Db::pop_last_in_range` (db.rs 1610-1632).  NOTE (faithful to the
source): the loop body takes `r.next()` — the FIRST in-bounds pair, not the
last — and CAS-deletes it.  In this sequential embedding the contents cannot
change between the read and the CAS, so the CAS precondition holds and the
retry loop is a single iteration; the unreachable retry branch returns the
state unchanged. -/
def popLastInRange (entries : List (Bytes × Bytes)) (r : KeyBound × KeyBound) :
    Option (Bytes × Bytes) × List (Bytes × Bytes) :=
  match rangeNext entries r with
  | none => (none, entries)
  | some (k, v) =>
    if smGet k entries = some v then (some (k, v), (smRemove k entries).1)
    else (none, entries)

/-- `Db::pop_first_in_range` (db.rs 1719-1741): identical body to
`pop_last_in_range` — it also takes `r.next()`, correctly here. -/
def popFirstInRange (entries : List (Bytes × Bytes))
    (r : KeyBound × KeyBound) : Option (Bytes × Bytes) × List (Bytes × Bytes) :=
  match rangeNext entries r with
  | none => (none, entries)
  | some (k, v) =>
    if smGet k entries = some v then (some (k, v), (smRemove k entries).1)
    else (none, entries)

/-! ## page_in (db.rs 518-550) and the read path -/

/-- The overshoot test of the `page_in` loop (db.rs 537-547): after routing
to the leaf with the greatest `lo ≤ key`, the leaf is sent back for another
routing round only when `hi < key`; otherwise it is returned to the caller. -/
def pageInAccepts (l : Leaf) (key : Bytes) : Bool :=
  match l.hi with
  | some hi => !(lexLt hi key)
  | none => true

/-- The assertions `leaf_for_key_mut` makes on the leaf `page_in` returned
(db.rs 563-566): `lo ≤ key` and `key < hi`.  `Db::get` makes the same `hi`
assertion (db.rs 666-668). -/
def leafForKeyMutAssert (l : Leaf) (key : Bytes) : Bool :=
  lexLe l.lo key &&
    (match l.hi with | some hi => lexLt key hi | none => true)

/-! ## scan_prefix (db.rs 1488-1506) -/

/-- The source's `while let Some(last) = upper.pop()` loop, acting on the
reversed prefix: drop trailing `0xFF` bytes and increment the last non-`0xFF`
byte; `none` when every byte is `0xFF`. -/
def incrementLastNonMax : Bytes → Option Bytes
  | [] => none
  | b :: rest => if b < 255 then some ((b + 1) :: rest) else incrementLastNonMax rest

/-- The exclusive upper bound `scan_prefix` derives from the prefix; `none`
means the scan degenerates to `range(prefix..)`. -/
def scanPrefixUpper (p : Bytes) : Option Bytes :=
  (incrementLastNonMax p.reverse).map List.reverse

/-- Membership in the key range `scan_prefix(p)` iterates:
`prefix ≤ k`, and `k < upper` when an upper bound exists. -/
def inScanPrefix (p k : Bytes) : Bool :=
  lexLe p k &&
    (match scanPrefixUpper p with
     | some u => lexLt k u
     | none => true)

/-! ## Helper lemmas about splitIfFull -/

theorem splitIfFull_of_not_full {fanout : Nat} {l : Leaf} {e rid : Nat}
    (h : l.data.length ≠ fanout) : splitIfFull fanout l e rid = (l, none) := by
  simp [splitIfFull, h]

/-- The two post-split data lists concatenate back to the original data
(with the right half read off the returned node). -/
theorem splitIfFull_data_append (fanout : Nat) (l : Leaf) (e rid : Nat) :
    ((splitIfFull fanout l e rid).1).data ++
      (match (splitIfFull fanout l e rid).2 with
       | some (_, n) => (n.inner.map Leaf.data).getD []
       | none => []) = l.data := by
  by_cases h : l.data.length = fanout
  · simp [splitIfFull, h]
  · simp [splitIfFull, h]

theorem splitIfFull_none_iff (fanout : Nat) (l : Leaf) (e rid : Nat) :
    (splitIfFull fanout l e rid).2 = none ↔ l.data.length ≠ fanout := by
  by_cases hf : l.data.length = fanout <;> simp [splitIfFull, hf]

theorem splitIfFull_fst_of_none {fanout : Nat} {l : Leaf} {e rid : Nat}
    (h : (splitIfFull fanout l e rid).2 = none) :
    (splitIfFull fanout l e rid).1 = l := by
  by_cases hf : l.data.length = fanout
  · simp [splitIfFull, hf] at h
  · rw [splitIfFull_of_not_full hf]

theorem markAndPublish_of_not_full {fanout : Nat} {l1 : Leaf}
    {dirty : DirtyMap} {low_key : Bytes} {e rid : Nat}
    (h : l1.data.length ≠ fanout) :
    markAndPublish fanout l1 dirty low_key e rid false = (l1, dirty, none) := by
  simp [markAndPublish, splitIfFull_of_not_full h]

/-- When a split fired or the operation-specific condition holds, the leaf is
marked dirty in the guard's epoch and `(epoch, low_key)` enters the dirty
map with an empty slot. -/
theorem markAndPublish_marked (fanout : Nat) (l1 : Leaf) (dirty : DirtyMap)
    (low_key : Bytes) (e rid : Nat) :
    (markAndPublish fanout l1 dirty low_key e rid true).1.dirty_flush_epoch =
      some e ∧
    dirtyGet (e, low_key)
      (markAndPublish fanout l1 dirty low_key e rid true).2.1 = some none := by
  simp only [markAndPublish]
  rcases hsp : (splitIfFull fanout l1 e rid).2 with _ | ⟨sk, n⟩ <;>
    simp [hsp, dirtyGet_dirtyInsert]

/-- The dirty marking only touches `dirty_flush_epoch`: the post-operation
data, across the leaf and the split-off right node, is the pre-marking
data. -/
theorem markAndPublish_data (fanout : Nat) (l1 : Leaf) (dirty : DirtyMap)
    (low_key : Bytes) (e rid : Nat) (b : Bool) :
    (markAndPublish fanout l1 dirty low_key e rid b).1.data ++
      (match (markAndPublish fanout l1 dirty low_key e rid b).2.2 with
       | some (_, n) => (n.inner.map Leaf.data).getD []
       | none => []) = l1.data := by
  have h := splitIfFull_data_append fanout l1 e rid
  simp only [markAndPublish]
  rcases hsp : (splitIfFull fanout l1 e rid).2 with _ | ⟨sk, n⟩ <;>
    rw [hsp] at h
  · cases b <;> simpa using h
  · simpa using h

theorem markAndPublish_split_none_iff (fanout : Nat) (l1 : Leaf)
    (dirty : DirtyMap) (low_key : Bytes) (e rid : Nat) (b : Bool) :
    (markAndPublish fanout l1 dirty low_key e rid b).2.2 = none ↔
      l1.data.length ≠ fanout := by
  simp only [markAndPublish]
  rcases hsp : (splitIfFull fanout l1 e rid).2 with _ | ⟨sk, n⟩
  · simp [hsp, (splitIfFull_none_iff fanout l1 e rid).mp hsp]
  · simp only [hsp]
    constructor
    · intro hcontra; cases hcontra
    · intro hne
      rw [splitIfFull_of_not_full hne] at hsp
      cases hsp

/-! ## Concrete states used by the evaluations below -/

/-- The single empty leaf covering the whole key space that a fresh store is
initialized with (db.rs 1967-1983). -/
def initialLeaf : Leaf :=
  { hi := none
    lo := []
    dirty_flush_epoch := none
    prefix_length := 0
    data := []
    in_memory_size := leafStructSize }

/-- Tree contents `{[1] ↦ [10], [2] ↦ [20], [3] ↦ [30]}`. -/
def popEntries : List (Bytes × Bytes) := [([1], [10]), ([2], [20]), ([3], [30])]

/-- A leaf covering `[[0], [1])`, as the left half of a split at `[1]`. -/
def overshootLeaf : Leaf :=
  { lo := [0], hi := some [1], prefix_length := 0, data := [([0], [7])],
    dirty_flush_epoch := none, in_memory_size := 0 }

/-- A leaf dirty in epoch 1. -/
def dirtyLeaf : Leaf :=
  { lo := [1], hi := some [9], prefix_length := 0, data := [([1], [2])],
    dirty_flush_epoch := some 1, in_memory_size := 5 }

/-! ## Claim theorems -/

/-- **C1.** Running `apply_batch {insert [1] ↦ [2]}` in epoch 1 on a fresh
store (one clean empty leaf with `lo = []`): the batch mutates the leaf's
data, yet afterwards the dirty map is still empty and the leaf's
`dirty_flush_epoch` is still `none` — the batch's leaves are NOT marked dirty
in the batch epoch, so a subsequent flush does not persist them.  This
contradicts the claim (and the source's own `apply_batch` documentation). -/
theorem applyBatch_leaves_batch_leaves_unmarked :
    (applyBatch 1024 1 [([1], some [2])] [([], initialLeaf)] [] 7).2.1 = [] ∧
    ((applyBatch 1024 1 [([1], some [2])] [([], initialLeaf)] [] 7).1.map
        (fun e => (e.2.data, e.2.dirty_flush_epoch))) =
      [([([1], [2])], none)] :=
  ⟨rfl, rfl⟩

/-- **C3.** On contents `{[1] ↦ [10], [2] ↦ [20], [3] ↦ [30]}`:
`pop_last` panics (its first step is `Iter::next_back`, which is `todo!()`),
and `pop_last_in_range([1]..=[3])` returns the FIRST pair `([1], [10])` — the
source loop takes `r.next()` — not the last pair `([3], [30])` that the claim
(and the source's own doc test) requires. -/
theorem popLast_diverges_from_spec :
    popLast popEntries = Except.error PanicKind.todoUnimplemented ∧
    popLastInRange popEntries (KeyBound.included [1], KeyBound.included [3]) =
      (some ([1], [10]), [([2], [20]), ([3], [30])]) :=
  ⟨rfl, rfl⟩

/-- **C10.** For key `[1]` routed to the leaf `[[0], [1])` (stale after a
split at `[1]`): the leaf's `hi = some [1]` satisfies the claim's retry
condition `hi ≤ key`, yet `page_in`'s test (`hi < key`, db.rs 538-539)
accepts the leaf instead of retrying, and the assertion `key < hi` that
`leaf_for_key_mut` and `get` immediately make on the returned leaf fails. -/
theorem pageIn_accepts_leaf_failing_caller_assert :
    pageInAccepts overshootLeaf [1] = true ∧
    (overshootLeaf.hi.map (fun hi => lexLe hi [1])) = some true ∧
    leafForKeyMutAssert overshootLeaf [1] = false := by
  decide

/-- **C5 counterexample.** A leaf dirty in epoch 1 does not round-trip its
`dirty_flush_epoch` through serialize/deserialize: the field is
`#[serde(skip)]`, so deserialization resets it to `None`. -/
theorem roundTrip_drops_dirty_epoch :
    (Leaf.deserialize (Leaf.serialize dirtyLeaf)).dirty_flush_epoch ≠
      dirtyLeaf.dirty_flush_epoch := by
  decide

/-- **C5 (amended).** `deserialize(serialize(leaf))` preserves `lo`, `hi`,
`prefix_length` and `data`; `in_memory_size` is recomputed as the
decompressed byte length, and `dirty_flush_epoch` — skipped by serialization —
comes back as `None` rather than round-tripping. -/
theorem serialize_roundTrip_fields (l : Leaf) :
    (Leaf.deserialize (Leaf.serialize l)).lo = l.lo ∧
    (Leaf.deserialize (Leaf.serialize l)).hi = l.hi ∧
    (Leaf.deserialize (Leaf.serialize l)).prefix_length = l.prefix_length ∧
    (Leaf.deserialize (Leaf.serialize l)).data = l.data ∧
    (Leaf.deserialize (Leaf.serialize l)).dirty_flush_epoch = none ∧
    (Leaf.deserialize (Leaf.serialize l)).in_memory_size =
      encodedLength (Leaf.serialize l) :=
  ⟨rfl, rfl, rfl, rfl, rfl, rfl⟩

/-- **C4 counterexample.** With the fatal error `(5, "io")` installed in the
global slot, `apply_batch` does not return the installed error: it runs to
completion and returns `Ok` with the batch applied (there is no
`check_error` call in its body). -/
theorem applyBatch_ignores_installed_error :
    applyBatchChecked (some ⟨5, "io"⟩) 1024 1 [([1], some [2])]
        [([], initialLeaf)] [] 7 =
      Except.ok (applyBatch 1024 1 [([1], some [2])] [([], initialLeaf)] [] 7) :=
  rfl

/-- **C4 (amended).** `get`, `insert`, `remove` and `compare_and_swap` begin
by checking the global error slot and return the installed error immediately;
`apply_batch` performs no such check and its body runs whatever the slot
holds; `set_error` installs only the first fatal error and later errors are
dropped. -/
theorem errorSlot_check_semantics (slot : Option GErr) (e : GErr)
    (h : slot = some e) (fanout : Nat) (l : Leaf) (dirty : DirtyMap)
    (low_key : Bytes) (new_epoch rhs_id : Nat) (k v : Bytes)
    (old new : Option Bytes) (writes : List (Bytes × Option Bytes))
    (acquired : List (Bytes × Leaf)) (firstRhsId : Nat) :
    dbGetChecked slot l k = Except.error e ∧
    dbInsertChecked slot fanout l dirty low_key new_epoch rhs_id k v =
      Except.error e ∧
    dbRemoveChecked slot l dirty low_key new_epoch k = Except.error e ∧
    dbCompareAndSwapChecked slot fanout l dirty low_key new_epoch rhs_id k
        old new = Except.error e ∧
    applyBatchChecked slot fanout new_epoch writes acquired dirty firstRhsId =
      Except.ok (applyBatch fanout new_epoch writes acquired dirty firstRhsId) ∧
    (∀ e1 e2 : GErr, setError (setError none e1) e2 = some e1) := by
  subst h
  exact ⟨rfl, rfl, rfl, rfl, rfl, fun _ _ => rfl⟩

/-- Witness for **C4 (amended)** at the concrete slot `(5, "io")`. -/
theorem errorSlot_check_semantics_witness :
    (some (⟨5, "io"⟩ : GErr) = some (⟨5, "io"⟩ : GErr)) ∧
    dbGetChecked (some ⟨5, "io"⟩) initialLeaf [1] =
      Except.error ⟨5, "io"⟩ :=
  ⟨rfl,
    (errorSlot_check_semantics (some ⟨5, "io"⟩) ⟨5, "io"⟩ rfl 1024 initialLeaf
      [] [] 1 7 [1] [2] none none [] [] 7).1⟩

/-- **C8.** `insert(k, v)` returns the previous value stored for `k`, and it
marks the leaf dirty — sets `dirty_flush_epoch` to the guard's epoch and
upserts `dirty[(epoch, low_key)] = None` — whenever a split occurred or the
previous value differs from `v`; inserting the value already present marks
nothing dirty (the not-full hypothesis is the standing invariant that a full
leaf is split immediately, so no leaf is full at rest). -/
theorem insert_returns_old_and_marks_dirty (fanout : Nat) (l : Leaf)
    (dirty : DirtyMap) (low_key : Bytes) (e rid : Nat) (k v : Bytes)
    (r : InsertOutcome) (hr : r = dbInsert fanout l dirty low_key e rid k v)
    (hsort : SmSorted l.data) (hnf : l.data.length ≠ fanout) :
    r.ret = smGet k l.data ∧
    ((r.split.isSome = true ∨ smGet k l.data ≠ some v) →
      r.leaf.dirty_flush_epoch = some e ∧
      dirtyGet (e, low_key) r.dirty = some none) ∧
    (smGet k l.data = some v →
      r.split = none ∧ r.leaf.data = l.data ∧
      r.leaf.dirty_flush_epoch = l.dirty_flush_epoch ∧ r.dirty = dirty) := by
  subst hr
  have hret := smInsert_ret (k := k) (v := v) hsort
  by_cases hget : smGet k l.data = some v
  · -- the previous value equals v: data is unchanged and nothing fires
    have hins1 : (smInsert k v l.data).1 = l.data := smInsert_same hsort hget
    have hins2 : (smInsert k v l.data).2 = some v := hret.trans hget
    simp only [dbInsert, hins1, hins2, beq_self_eq_true, Bool.not_true]
    rw [markAndPublish_of_not_full (by simpa using hnf)]
    simp [hget]
  · -- the previous value differs (or is absent): the leaf is marked dirty
    have hbeq : (!(some v == (smInsert k v l.data).2)) = true := by
      rw [hret]
      simp only [Bool.not_eq_true']
      exact beq_eq_false_iff_ne.mpr (fun h => hget h.symm)
    refine ⟨?_, fun _ => ?_, fun h => absurd h hget⟩
    · simp [dbInsert, hret]
    · simp only [dbInsert, hbeq]
      exact markAndPublish_marked fanout _ dirty low_key e rid

/-- Witness for **C8**: creating `[1] ↦ [2]` in the fresh store's empty leaf
returns `None` and marks the leaf dirty in epoch 1. -/
theorem insert_returns_old_and_marks_dirty_witness :
    (dbInsert 1024 initialLeaf [] [] 1 7 [1] [2]).ret =
      smGet [1] initialLeaf.data ∧
    (((dbInsert 1024 initialLeaf [] [] 1 7 [1] [2]).split.isSome = true ∨
        smGet [1] initialLeaf.data ≠ some [2]) →
      (dbInsert 1024 initialLeaf [] [] 1 7 [1] [2]).leaf.dirty_flush_epoch =
        some 1 ∧
      dirtyGet (1, []) (dbInsert 1024 initialLeaf [] [] 1 7 [1] [2]).dirty =
        some none) :=
  ⟨(insert_returns_old_and_marks_dirty 1024 initialLeaf [] [] 1 7 [1] [2] _
      rfl List.Pairwise.nil (by decide)).1,
   (insert_returns_old_and_marks_dirty 1024 initialLeaf [] [] 1 7 [1] [2] _
      rfl List.Pairwise.nil (by decide)).2.1⟩

/-- **C2.** `compare_and_swap(k, old, new)` succeeds — returning
`CompareAndSwapSuccess{new_value, previous_value}` — iff the stored value
equals `old` (`None` matching `None`, i.e. create-if-absent); on success the
map afterwards (including a split-off right half) holds `new` for `k`
(removal when `new = None`) and the leaf is marked dirty; on failure it
returns `CompareAndSwapError{current, proposed}` and the leaf, the dirty map
and the index are completely untouched.  The not-full hypothesis is the
standing invariant that a full leaf is split immediately, so no leaf is full
at rest. -/
theorem compareAndSwap_semantics (fanout : Nat) (l : Leaf) (dirty : DirtyMap)
    (low_key : Bytes) (e rid : Nat) (k : Bytes) (old new : Option Bytes)
    (r : CasOutcome)
    (hr : r = dbCompareAndSwap fanout l dirty low_key e rid k old new)
    (hsort : SmSorted l.data) (hnf : l.data.length ≠ fanout) :
    (r.result = Except.ok ⟨new, smGet k l.data⟩ ↔ old = smGet k l.data) ∧
    (old = smGet k l.data →
      smGet k (r.leaf.data ++
        (match r.split with
         | some (_, n) => (n.inner.map Leaf.data).getD []
         | none => [])) = new ∧
      r.leaf.dirty_flush_epoch = some e ∧
      dirtyGet (e, low_key) r.dirty = some none) ∧
    (old ≠ smGet k l.data →
      r.result = Except.error ⟨smGet k l.data, new⟩ ∧
      r.leaf = l ∧ r.dirty = dirty ∧ r.split = none) := by
  subst hr
  by_cases hm : old = smGet k l.data
  · refine ⟨?_, fun _ => ?_, fun h => absurd hm h⟩
    · simp [dbCompareAndSwap, hm, previousMatches_true rfl]
    · simp only [dbCompareAndSwap, previousMatches_true hm, if_true]
      refine ⟨?_, markAndPublish_marked fanout _ dirty low_key e rid⟩
      rw [markAndPublish_data]
      cases new with
      | some nv => simpa using smGet_smInsert k nv l.data
      | none => simpa using smGet_smRemove k hsort
  · refine ⟨?_, fun h => absurd h hm, fun _ => ?_⟩
    · simp [dbCompareAndSwap, previousMatches_false hm, hm]
    · simp only [dbCompareAndSwap, previousMatches_false hm,
        Bool.false_eq_true, if_false]
      rw [markAndPublish_of_not_full (by simpa using hnf)]
      simp

/-- Witness for **C2**: create-if-absent of `[1] ↦ [2]` on the fresh store's
empty leaf (both `old` and the current value are `None`). -/
theorem compareAndSwap_semantics_witness :
    ((dbCompareAndSwap 1024 initialLeaf [] [] 1 7 [1] none (some [2])).result =
        Except.ok ⟨some [2], smGet [1] initialLeaf.data⟩ ↔
      none = smGet [1] initialLeaf.data) ∧
    (none = smGet [1] initialLeaf.data ∧ initialLeaf.data.length ≠ 1024) :=
  ⟨(compareAndSwap_semantics 1024 initialLeaf [] [] 1 7 [1] none (some [2]) _
      rfl List.Pairwise.nil (by decide)).1,
   by decide⟩

/-- **C7.** `split_if_full` returns no split exactly when the leaf is not
full (then the leaf is untouched); on a split, the multiset of key-value
pairs across the two post-split leaves equals the pre-split contents, the new
right leaf covers `[separator, old hi)` and is born dirty in the batch epoch,
and the old leaf's range shrinks to `[lo, separator)` — adjacent and
non-overlapping. -/
theorem splitIfFull_preserves_content (fanout : Nat) (l : Leaf) (e rid : Nat) :
    ((splitIfFull fanout l e rid).2 = none ↔ l.data.length ≠ fanout) ∧
    ((splitIfFull fanout l e rid).2 = none → (splitIfFull fanout l e rid).1 = l) ∧
    (∀ sk n, (splitIfFull fanout l e rid).2 = some (sk, n) →
      ((Multiset.ofList (splitIfFull fanout l e rid).1.data +
          Multiset.ofList ((n.inner.map Leaf.data).getD []) =
        Multiset.ofList l.data) ∧
      (n.inner.map Leaf.lo) = some sk ∧
      (n.inner.map Leaf.hi) = some l.hi ∧
      (n.inner.map Leaf.dirty_flush_epoch) = some (some e) ∧
      (splitIfFull fanout l e rid).1.hi = some sk ∧
      (splitIfFull fanout l e rid).1.lo = l.lo)) := by
  refine ⟨splitIfFull_none_iff fanout l e rid, fun h => splitIfFull_fst_of_none h, ?_⟩
  intro sk n h
  by_cases hf : l.data.length = fanout
  · simp only [splitIfFull, hf, eq_self_iff_true, if_true] at h
    rw [Option.some.injEq, Prod.mk.injEq] at h
    obtain ⟨hsk, hn⟩ := h
    subst hsk
    subst hn
    refine ⟨?_, rfl, rfl, rfl, by simp [splitIfFull, hf], by simp [splitIfFull, hf]⟩
    have h1 : (splitIfFull fanout l e rid).1.data = l.data.take (splitOffset l) := by
      simp [splitIfFull, hf]
    rw [h1]
    exact (Multiset.coe_add _ _).trans
      (congrArg Multiset.ofList (List.take_append_drop _ _))
  · rw [splitIfFull_of_not_full hf] at h
    cases h

/-- A full leaf with fanout 4 used to exercise the split. -/
def fullLeaf : Leaf :=
  { lo := [1], hi := some [9], prefix_length := 0,
    data := [([1], [0]), ([2], [0]), ([3], [0]), ([4], [0])],
    dirty_flush_epoch := none, in_memory_size := 0 }

/-- The node `splitIfFull 4 fullLeaf 1 7` creates. -/
def splitRhsNode : Node :=
  ⟨7, some { lo := [3], hi := some [9], prefix_length := 0,
             data := [([3], [0]), ([4], [0])],
             dirty_flush_epoch := some 1, in_memory_size := 6 }⟩

/-- Witness for **C7**: splitting the full 4-entry leaf at separator `[3]`
preserves the multiset of entries. -/
theorem splitIfFull_preserves_content_witness :
    (splitIfFull 4 fullLeaf 1 7).2 = some ([3], splitRhsNode) ∧
    (Multiset.ofList (splitIfFull 4 fullLeaf 1 7).1.data +
        Multiset.ofList ((splitRhsNode.inner.map Leaf.data).getD []) =
      Multiset.ofList fullLeaf.data) :=
  ⟨by decide,
   ((splitIfFull_preserves_content 4 fullLeaf 1 7).2.2 [3] splitRhsNode
      (by decide)).1⟩

/-! ## The separator key: suffix truncation lemmas (for C6) -/

theorem commonPrefixLen_nil_right (R : Bytes) : commonPrefixLen R [] = 0 := by
  simp [commonPrefixLen]

theorem commonPrefixLen_cons (b a : Nat) (R L : Bytes) :
    commonPrefixLen (b :: R) (a :: L) =
      if b = a then commonPrefixLen R L + 1 else 0 := by
  by_cases h : b = a <;>
    simp [commonPrefixLen, List.zip_cons_cons, List.takeWhile_cons, h]

/-- The keys flanking a split point share a common prefix strictly shorter
than the right key, so taking one byte more never runs off its end. -/
theorem commonPrefixLen_lt_length {L R : Bytes} (h : lexLt L R = true) :
    commonPrefixLen R L < R.length := by
  induction L generalizing R with
  | nil =>
    cases R with
    | nil => rw [lexLt_irrefl] at h; exact absurd h (by simp)
    | cons b R' => simp [commonPrefixLen_nil_right]
  | cons a L' ih =>
    cases R with
    | nil => rw [lexLt_nil_right] at h; exact absurd h (by simp)
    | cons b R' =>
      rcases Nat.lt_trichotomy a b with h1 | h1 | h1
      · rw [commonPrefixLen_cons, if_neg (by omega)]
        simp
      · subst h1
        rw [commonPrefixLen_cons, if_pos rfl]
        rw [lexLt_cons_self] at h
        simpa using Nat.succ_lt_succ (ih h)
      · rw [lexLt_cons_of_gt h1] at h; exact absurd h (by simp)

/-- The suffix-truncated key `R[..commonPrefixLen+1]` is strictly above the
left flank `L`. -/
theorem lexLt_take_commonPrefix {L R : Bytes} (h : lexLt L R = true) :
    lexLt L (R.take (commonPrefixLen R L + 1)) = true := by
  induction L generalizing R with
  | nil =>
    cases R with
    | nil => rw [lexLt_irrefl] at h; exact absurd h (by simp)
    | cons b R' => simp [commonPrefixLen_nil_right, lexLt]
  | cons a L' ih =>
    cases R with
    | nil => rw [lexLt_nil_right] at h; exact absurd h (by simp)
    | cons b R' =>
      rcases Nat.lt_trichotomy a b with h1 | h1 | h1
      · rw [commonPrefixLen_cons, if_neg (by omega)]
        simpa [List.take] using lexLt_cons_of_lt h1 L' []
      · subst h1
        rw [commonPrefixLen_cons, if_pos rfl]
        rw [lexLt_cons_self] at h
        simpa [List.take_succ_cons, lexLt_cons_self] using ih h
      · rw [lexLt_cons_of_gt h1] at h; exact absurd h (by simp)

/-- No byte string strictly between `L` and `R` (inclusive on the right) can
be shorter than `commonPrefixLen + 1`. -/
theorem commonPrefixLen_minimality :
    ∀ (s L R : Bytes), lexLt L s = true → lexLe s R = true →
      commonPrefixLen R L + 1 ≤ s.length
  | [], L, R, h1, _ => by
    rw [lexLt_nil_right] at h1; exact absurd h1 (by simp)
  | x :: s', L, R, h1, h2 => by
    cases L with
    | nil =>
      cases R with
      | nil => simp [lexLe, lexLt] at h2
      | cons b R' => simp [commonPrefixLen_nil_right]
    | cons a L' =>
      cases R with
      | nil => simp [lexLe, lexLt] at h2
      | cons b R' =>
        rw [commonPrefixLen_cons]
        by_cases hba : b = a
        · subst hba
          rw [if_pos rfl]
          rcases Nat.lt_trichotomy b x with hx | hx | hx
          · rw [lexLe, lexLt_cons_of_lt hx] at h2
            exact absurd h2 (by simp)
          · subst hx
            rw [lexLt_cons_self] at h1
            rw [lexLe, lexLt_cons_self] at h2
            have ih := commonPrefixLen_minimality s' L' R' h1 h2
            simpa [Nat.succ_le_succ_iff] using ih
          · rw [lexLt_cons_of_gt hx] at h1
            exact absurd h1 (by simp)
        · rw [if_neg hba]
          simp

/-- **C6.** For a split of a full leaf, with `L` the last key of the left
half and `R` the first key of the right half, the separator `split_if_full`
chooses equals `R[..commonPrefixLen(L,R)+1]` (the take is full length), and
it is a shortest byte string `s` with `L < s ≤ R`: it satisfies both bounds
and every such `s` is at least as long. -/
theorem splitKey_shortest_separator (fanout e rid : Nat) (l : Leaf)
    (hlen : l.data.length = fanout)
    (hsort : SmSorted l.data) (L R : Bytes)
    (hL : ((l.data.take (splitOffset l)).getLast?.map Prod.fst) = some L)
    (hR : ((l.data.drop (splitOffset l)).head?.map Prod.fst) = some R) :
    ((splitIfFull fanout l e rid).2.map Prod.fst) =
      some (R.take (commonPrefixLen R L + 1)) ∧
    (R.take (commonPrefixLen R L + 1)).length = commonPrefixLen R L + 1 ∧
    lexLt L (R.take (commonPrefixLen R L + 1)) = true ∧
    lexLe (R.take (commonPrefixLen R L + 1)) R = true ∧
    (∀ s : Bytes, lexLt L s = true → lexLe s R = true →
      (R.take (commonPrefixLen R L + 1)).length ≤ s.length) := by
  obtain ⟨pL, hpL, hpL1⟩ := Option.map_eq_some'.mp hL
  obtain ⟨pR, hpR, hpR1⟩ := Option.map_eq_some'.mp hR
  have hLR : lexLt L R = true := by
    have hsplit : l.data = l.data.take (splitOffset l) ++ l.data.drop (splitOffset l) :=
      (List.take_append_drop _ _).symm
    have hs2 : List.Pairwise (fun x y : Bytes × Bytes => lexLt x.1 y.1 = true)
        (l.data.take (splitOffset l) ++ l.data.drop (splitOffset l)) := by
      rw [← hsplit]; exact hsort
    have hmemL : pL ∈ l.data.take (splitOffset l) :=
      List.mem_of_getLast?_eq_some hpL
    have hmemR : pR ∈ l.data.drop (splitOffset l) :=
      List.mem_of_mem_head? (by rw [hpR]; exact rfl)
    have := (List.pairwise_append.mp hs2).2.2 pL hmemL pR hmemR
    rwa [hpL1, hpR1] at this
  have hltlen : commonPrefixLen R L < R.length := commonPrefixLen_lt_length hLR
  have htakelen : (R.take (commonPrefixLen R L + 1)).length =
      commonPrefixLen R L + 1 := by
    rw [List.length_take]; omega
  refine ⟨?_, htakelen, lexLt_take_commonPrefix hLR, lexLe_take_self _ _, ?_⟩
  · have hLeq : ((l.data.take (splitOffset l)).getLast?.map Prod.fst).getD [] = L := by
      rw [hL]; rfl
    have hReq : ((l.data.drop (splitOffset l)).head?.map Prod.fst).getD [] = R := by
      rw [hR]; rfl
    simp only [splitIfFull, hlen, eq_self_iff_true, if_true, Option.map_some']
    rw [hLeq, hReq]
  · intro s h1 h2
    rw [htakelen]
    exact commonPrefixLen_minimality s L R h1 h2

/-- Witness for **C6** on the full 4-entry leaf: `L = [2]`, `R = [3]`,
separator `[3]`. -/
theorem splitKey_shortest_separator_witness :
    fullLeaf.data.length = 4 ∧
    ((splitIfFull 4 fullLeaf 1 7).2.map Prod.fst) =
      some (([3] : Bytes).take (commonPrefixLen [3] [2] + 1)) :=
  ⟨rfl,
   (splitKey_shortest_separator 4 1 7 fullLeaf rfl (by decide)
      [2] [3] (by decide) (by decide)).1⟩

/-! ## scan_prefix lemmas (for C9) -/

theorem lexLe_cons_self (a : Nat) (as bs : Bytes) :
    lexLe (a :: as) (a :: bs) = lexLe as bs := by
  simp [lexLe, lexLt_cons_self]

theorem lexLe_cons_of_lt {a b : Nat} (h : a < b) (as bs : Bytes) :
    lexLe (a :: as) (b :: bs) = true := by
  simp [lexLe, lexLt_cons_of_gt h]

theorem lexLe_cons_of_gt {a b : Nat} (h : b < a) (as bs : Bytes) :
    lexLe (a :: as) (b :: bs) = false := by
  simp [lexLe, lexLt_cons_of_lt h]

theorem incrementLastNonMax_append (xs ys : Bytes) :
    incrementLastNonMax (xs ++ ys) =
      match incrementLastNonMax xs with
      | some u => some (u ++ ys)
      | none => incrementLastNonMax ys := by
  induction xs with
  | nil => simp [incrementLastNonMax]
  | cons b xs ih =>
    by_cases hb : b < 255 <;> simp [incrementLastNonMax, hb, ih]

/-- Head-recursive unfolding of the end-of-string loop: the upper bound of
`a :: p` extends the upper bound of `p` when one exists, otherwise (all of
`p` is `0xFF`) it increments `a` itself. -/
theorem scanPrefixUpper_cons (a : Nat) (p : Bytes) :
    scanPrefixUpper (a :: p) =
      match scanPrefixUpper p with
      | some u => some (a :: u)
      | none => if a < 255 then some [a + 1] else none := by
  rw [scanPrefixUpper, scanPrefixUpper]
  rw [List.reverse_cons, incrementLastNonMax_append]
  cases hi : incrementLastNonMax p.reverse with
  | none => by_cases ha : a < 255 <;> simp [incrementLastNonMax, ha]
  | some u => simp

/-- Keys below 256 per byte lie in the range `scan_prefix(p)` iterates
exactly when they extend `p`. -/
theorem inScanPrefix_iff_isPrefix :
    ∀ (p k : Bytes), (∀ b ∈ k, b < 256) →
      (inScanPrefix p k = true ↔ p <+: k)
  | [], k, _ => by
    simp [inScanPrefix, scanPrefixUpper, incrementLastNonMax, lexLe,
      lexLt_nil_right]
  | a :: p', [], _ => by
    simp [inScanPrefix, lexLe, lexLt]
  | a :: p', b :: k', hk => by
    have hb : b < 256 := hk b (by simp)
    have hk' : ∀ x ∈ k', x < 256 := fun x hx => hk x (by simp [hx])
    have ih := inScanPrefix_iff_isPrefix p' k' hk'
    rw [inScanPrefix, scanPrefixUpper_cons, List.cons_prefix_cons]
    cases hup : scanPrefixUpper p' with
    | some u =>
      rw [inScanPrefix, hup] at ih
      rcases Nat.lt_trichotomy a b with h1 | h1 | h1
      · simp [lexLe_cons_of_lt h1, lexLt_cons_of_gt h1]
        exact fun heq => absurd heq (by omega)
      · subst h1
        simp [lexLe_cons_self, lexLt_cons_self, ih]
      · simp [lexLe_cons_of_gt h1]
        exact fun heq => absurd heq (by omega)
    | none =>
      rw [inScanPrefix, hup] at ih
      simp only [Bool.and_true] at ih
      by_cases ha : a < 255
      · rw [if_pos ha]
        rcases Nat.lt_trichotomy a b with h1 | h1 | h1
        · have hlt : lexLt (b :: k') [a + 1] = false := by
            rcases Nat.lt_trichotomy b (a + 1) with h2 | h2 | h2
            · omega
            · subst h2; rw [lexLt_cons_self, lexLt_nil_right]
            · exact lexLt_cons_of_gt h2 _ _
          simp [hlt]
          exact fun heq => absurd heq (by omega)
        · subst h1
          simp [lexLe_cons_self, lexLt_cons_of_lt (Nat.lt_succ_self a), ih]
        · simp [lexLe_cons_of_gt h1]
          exact fun heq => absurd heq (by omega)
      · rcases Nat.lt_trichotomy a b with h1 | h1 | h1
        · exact absurd hb (by omega)
        · subst h1
          rw [if_neg ha]
          simp [lexLe_cons_self, ih]
        · rw [if_neg ha]
          simp [lexLe_cons_of_gt h1]
          exact fun heq => absurd heq (by omega)

/-- **C9.** `scan_prefix(p)` iterates exactly the keys extending `p`: its
range — `range(p..upper)` with `upper` obtained by popping trailing `0xFF`
bytes and incrementing the last non-`0xFF` byte, or `range(p..)` when `p` is
all-`0xFF` — contains a key iff `p` is a prefix of it; in particular over
keys `[0xFE], [0xFF], [0xFF,0x00], [0xFF,0xFF]` the scan of `[0xFF]` keeps
exactly the last three. -/
theorem scanPrefix_iterates_exactly_prefixed (p k : Bytes)
    (hk : ∀ b ∈ k, b < 256) :
    (inScanPrefix p k = true ↔ p <+: k) ∧
    ([[254], [255], [255, 0], [255, 255]].filter
        (fun q => inScanPrefix [255] q) =
      ([[255], [255, 0], [255, 255]] : List Bytes)) :=
  ⟨inScanPrefix_iff_isPrefix p k hk, by decide⟩

/-- Witness for **C9** at `p = [0, 1]`, `k = [0, 1, 5]`. -/
theorem scanPrefix_iterates_exactly_prefixed_witness :
    (∀ b ∈ ([0, 1, 5] : Bytes), b < 256) ∧
    (inScanPrefix [0, 1] [0, 1, 5] = true ↔ ([0, 1] : Bytes) <+: [0, 1, 5]) :=
  ⟨by decide,
   (scanPrefix_iterates_exactly_prefixed [0, 1] [0, 1, 5] (by decide)).1⟩

end Sled
